import Mathlib

/-!
Shallow embedding of the term_deck slide-rendering pipeline
(src/main.rs, src/rendering.rs, src/colors.rs).

Strings are modelled as `List Char` (the document is ASCII at every point a
claim touches, so char positions coincide with the byte offsets the source
uses).  Rust code that can panic (an `unwrap` on `None`, an unchecked usize
subtraction that would underflow) is modelled with `Option`, `none` standing
for the fault.  Machine-integer arithmetic in the claims never reaches a
wrap-around, so `Nat` is used directly; each spot where a usize subtraction
occurs is guarded exactly the way the source guards it (or modelled as a
fault when the source does not guard it).
-/

namespace TermDeck

/-! ### DocumentParser: main.rs `parse_metadata` and the slide split -/

/-- Metadata record from main.rs: optional author/title/subtitle. -/
structure Metadata where
  author : Option (List Char)
  title : Option (List Char)
  subtitle : Option (List Char)
deriving DecidableEq, Repr

/-- Keys recognised by the capture regex `(author|title|subtitle): (.*?)\n`. -/
inductive MKey
  | author
  | title
  | subtitle
deriving DecidableEq, Repr

/-- Literal text the alternation plus the following `: ` must match. -/
def key_pattern : MKey → List Char
  | .author => "author: ".toList
  | .title => "title: ".toList
  | .subtitle => "subtitle: ".toList

/-- Rust `char::is_whitespace` restricted to the ASCII whitespace occurring in
the inputs under study (space, tab, newline, carriage return). -/
def is_space (c : Char) : Bool :=
  c == ' ' || c == '\t' || c == '\n' || c == '\r'

/-- Rust `str::trim`: drop whitespace from both ends. -/
def trim_chars (s : List Char) : List Char :=
  ((s.dropWhile is_space).reverse.dropWhile is_space).reverse

/-- One attempt of the capture regex at the head of `s` for key `k`:
the key text plus `: ` must be a prefix, the value is everything up to the
next newline (`.` does not cross newlines and the pattern ends in `\n`, so a
terminating newline must exist), and matching resumes after that newline. -/
def try_capture (k : MKey) (s : List Char) : Option (List Char × List Char) :=
  let kp := key_pattern k
  if s.take kp.length = kp then
    let rest := s.drop kp.length
    match rest.dropWhile (fun c => c != '\n') with
    | _ :: after => some (rest.takeWhile (fun c => c != '\n'), after)
    | [] => none
  else none

/-- The alternation `(author|title|subtitle)` tried at one start position,
in the order the pattern lists the keys. -/
def capture_at (s : List Char) : Option (MKey × List Char × List Char) :=
  match try_capture .author s with
  | some (v, a) => some (.author, v, a)
  | none =>
    match try_capture .title s with
    | some (v, a) => some (.title, v, a)
    | none =>
      match try_capture .subtitle s with
      | some (v, a) => some (.subtitle, v, a)
      | none => none

/-- Leftmost, non-overlapping matching of the capture regex, as
`Regex::captures_iter` performs it: slide a start position left to right,
and after a match resume right after its end.  The fuel argument only bounds
the recursion; every step consumes at least one character, so fuel equal to
the input length (supplied by `captures_iter`) is never exhausted. -/
def captures_go : Nat → List Char → List (MKey × List Char)
  | 0, _ => []
  | _ + 1, [] => []
  | fuel + 1, c :: rest =>
    match capture_at (c :: rest) with
    | some (k, v, after) => (k, v) :: captures_go fuel after
    | none => captures_go fuel rest

/-- All `(key, value)` captures of `(author|title|subtitle): (.*?)\n` over the
whole input, in match order. -/
def captures_iter (content : List Char) : List (MKey × List Char) :=
  captures_go content.length content

/-- The per-capture update of main.rs: the field named by the key is set to
the trimmed value, so a later duplicate key overwrites an earlier one. -/
def apply_capture (m : Metadata) (kv : MKey × List Char) : Metadata :=
  match kv.1 with
  | .author => { m with author := some (trim_chars kv.2) }
  | .title => { m with title := some (trim_chars kv.2) }
  | .subtitle => { m with subtitle := some (trim_chars kv.2) }

/-- Opening front-matter delimiter line, `---` plus its newline. -/
def fm_open : List Char := "---\n".toList

/-- Closing shape the greedy part of the strip regex must end with. -/
def fm_close : List Char := "\n---\n".toList

/-- Start positions at which `\n---\n` occurs, restricted to positions at or
after index 4 (the strip pattern is `(?s)^---\n.*\n---\n`, so the closing
part begins at index `4 + |.*-match|`). -/
def close_positions (content : List Char) : List Nat :=
  (List.range content.length).filter
    (fun i => decide (4 ≤ i) && decide ((content.drop i).take 5 = fm_close))

/-- Embedding of `Regex::new(r"(?s)^---\n.*\n---\n").replace(content, "")`:
the pattern is anchored at the start of the input and `.*` is greedy with
`(?s)`, so the engine removes the prefix running through the last occurrence
of `\n---\n`; with no match the input is returned unchanged. -/
def strip_front_matter (content : List Char) : List Char :=
  if content.take 4 = fm_open then
    match (close_positions content).getLast? with
    | some i => content.drop (i + 5)
    | none => content
  else content

/-- main.rs `parse_metadata`: the capture scan over the whole input builds the
metadata (last duplicate wins), the strip regex produces the body. -/
def parse_metadata (content : List Char) : Metadata × List Char :=
  ((captures_iter content).foldl apply_capture ⟨none, none, none⟩,
    strip_front_matter content)

/-- The literal slide delimiter of main.rs. -/
def slide_delim : List Char := "<!-- end_slide -->".toList

/-- Worker for the slide split; Rust `str::split` with a literal substring
pattern cuts at each leftmost non-overlapping occurrence and keeps empty
pieces.  Fuel only bounds the recursion: every step consumes at least one
character, so fuel equal to the input length is never exhausted. -/
def split_go : Nat → List Char → List (List Char)
  | _, [] => [[]]
  | 0, s => [s]
  | fuel + 1, c :: rest =>
    if (c :: rest).take slide_delim.length = slide_delim then
      [] :: split_go fuel ((c :: rest).drop slide_delim.length)
    else
      match split_go fuel rest with
      | [] => [[c]]
      | seg :: segs => (c :: seg) :: segs

/-- main.rs: `content_without_metadata.split("<!-- end_slide -->").collect()`. -/
def split_into_slides (s : List Char) : List (List Char) :=
  split_go s.length s

/-! ### Presentation navigation: main.rs `impl Presentation` -/

/-- The two indices of the navigation state machine.  The slide list and the
theme list only enter the transitions through their lengths, passed as
parameters `num_slides` and `num_themes` below. -/
structure Presentation where
  current_slide : Nat
  current_theme_index : Nat
deriving DecidableEq, Repr

/-- main.rs `move_to_previous_slide`: `saturating_sub(1)`, which on `Nat` is
plain truncated subtraction. -/
def move_to_previous_slide (p : Presentation) : Presentation :=
  { p with current_slide := p.current_slide - 1 }

/-- main.rs `move_to_next_slide`: guarded increment below
`slides.len() - 1`. -/
def move_to_next_slide (num_slides : Nat) (p : Presentation) : Presentation :=
  if p.current_slide < num_slides - 1 then
    { p with current_slide := p.current_slide + 1 }
  else p

/-- main.rs `cycle_theme`: increment modulo the theme count. -/
def cycle_theme (num_themes : Nat) (p : Presentation) : Presentation :=
  { p with current_theme_index := (p.current_theme_index + 1) % num_themes }

/-! ### Centered text: rendering.rs `render_text_centered` -/

/-- Padding computation of `render_text_centered`:
`(width as usize - text.len()) / 2`.  The usize subtraction is unchecked in
the source; when `text.len() > width` it underflows (panic in a debug build,
wrap to an astronomic repeat count in release), modelled as `none`. -/
def centered_padding (width text_len : Nat) : Option Nat :=
  if text_len ≤ width then some ((width - text_len) / 2) else none

/-! ### Line classification: rendering.rs `render_slide` body loop -/

/-- Heading levels of rendering.rs. -/
inductive Header
  | Header1
  | Header2
  | Header3
  | Header4
deriving DecidableEq, Repr

/-- rendering.rs `Header::header_by_prefix`: only runs of exactly one to four
hash marks name a heading. -/
def header_by_prefix (p : List Char) : Option Header :=
  if p = "#".toList then some .Header1
  else if p = "##".toList then some .Header2
  else if p = "###".toList then some .Header3
  else if p = "####".toList then some .Header4
  else none

/-- rendering.rs `extract_prefix`: the leading run of `#` characters, and the
rest with the hashes and following whitespace removed. -/
def extract_prefix (s : List Char) : List Char × List Char :=
  (s.takeWhile (fun c => c == '#'),
    (s.dropWhile (fun c => c == '#')).dropWhile is_space)

/-- First index at which `pat` occurs in the list, Rust `str::find`. -/
def find_sub (pat : List Char) : List Char → Option Nat
  | [] => if pat = [] then some 0 else none
  | c :: rest =>
    if pat = (c :: rest).take pat.length then some 0
    else Option.map (· + 1) (find_sub pat rest)

/-- Rust slice `&l[a..b]` for `a ≤ b ≤ l.len()`. -/
def slice (l : List Char) (a b : Nat) : List Char :=
  (l.drop a).take (b - a)

/-- rendering.rs `extract_image_path`: a line starting with `![`, containing
`](` and ending in `)` yields the text between `](` and the final `)`. -/
def extract_image_path (line : List Char) : Option (List Char) :=
  match find_sub ("](".toList) line with
  | some i =>
    if ("![".toList).isPrefixOf line ∧ line.getLast? = some ')' then
      some (slice line (i + 2) (line.length - 1))
    else none
  | none => none

/-- Result of classifying one body line in `render_slide`. -/
inductive LineClass
  | image (path : List Char)
  | code
  | header (h : Header) (rest : List Char)
  | plain (l : List Char)
deriving DecidableEq, Repr

/-- The per-line branch order of `render_slide`: image directive, then code
fence opener, then hash-prefixed line, then plain text.  On a hash-prefixed
line the source calls `.unwrap()` on ` header_by_prefix`, which panics when
the hash run is not of length one to four; the panic is modelled as `none`. -/
def classify_line (line : List Char) : Option LineClass :=
  match extract_image_path line with
  | some p => some (.image p)
  | none =>
    if ("```".toList).isPrefixOf line then some .code
    else if ("#".toList).isPrefixOf line then
      match header_by_prefix ( extract_prefix line).1 with
      | some h => some (.header h ( extract_prefix line).2)
      | none => none
    else some (.plain line)

/-! ### Syntax tokens and the render-time merge: rendering.rs `render_code_block` -/

/-- The closed set of token kinds of rendering.rs (`Type` is a Lean keyword,
so that constructor is spelled `Typ`). -/
inductive SyntaxKind
  | Keyword
  | Bracket
  | Delimiter
  | Conditional
  | Repeat
  | Constant
  | Function
  | Typ
  | Spell
  | String
  | Number
  | Comment
  | Variable
  | Parameter
  | Operator
  | Default
deriving DecidableEq, Repr

/-- A highlight token: half-open byte span into the code block content.  The
source field `end` is a Lean keyword and is spelled `stop` here. -/
structure SyntaxToken where
  kind : SyntaxKind
  start : Nat
  stop : Nat
deriving DecidableEq, Repr

/-- The per-line token filter of `render_code_block`:
`t.start >= line_start && t.start < line_end`. -/
def line_tokens (tokens : List SyntaxToken) (line_start line_stop : Nat) :
    List SyntaxToken :=
  tokens.filter (fun t => decide (line_start ≤ t.start) && decide (t.start < line_stop))

/-- The inner `for pos in s..e` loop of the first pass, setting a run of
entries of the boolean vector to `true`. -/
def mark_range (cp : List Bool) (s e : Nat) : List Bool :=
  (List.range' s (e - s)).foldl (fun acc p => acc.set p true) cp

/-- First pass of the merge: a vector of length `line_len`, with `true` at
each position some token of the line covers.  Spans are shifted by
`line_start` and clipped to the line length exactly as the source does
(`min (t.end - line_start) line.len()`); the filter guarantees
`line_start ≤ t.start`, so those usize subtractions are in range. -/
def colored_positions (line_len line_start : Nat) (ltoks : List SyntaxToken) :
    List Bool :=
  ltoks.foldl
    (fun cp t => mark_range cp (t.start - line_start) (min (t.stop - line_start) line_len))
    (List.replicate line_len false)

/-- The scan `while end_pos < line.len() && !colored_positions[end_pos]`.
Fuel `line_len - p` (supplied by `scan_uncolored`) is exact: the loop stops
at the latest when `p` reaches `line_len`. -/
def scan_go (cp : List Bool) (line_len : Nat) : Nat → Nat → Nat
  | 0, p => p
  | fuel + 1, p =>
    if p < line_len ∧ cp.getD p false = false then scan_go cp line_len fuel (p + 1)
    else p

/-- End of the uncolored run starting right after `p`. -/
def scan_uncolored (cp : List Bool) (line_len p : Nat) : Nat :=
  scan_go cp line_len (line_len - p) p

/-- Second pass of the merge, the `while current_pos < line.len()` loop.
Each emitted segment is a (color, text) pair; `none` is uncolored output.
At an uncolored position the run up to the next colored position is emitted;
at a colored position the first token whose (shifted) start equals the
position is emitted through its clipped end, and when no token starts there
the position is skipped with nothing emitted.  The source loop has no
termination measure (the colored branch can leave `current_pos` unchanged),
so the embedding takes explicit fuel and answers `none` when the fuel runs
out before the loop exits. -/
def merge_go (line : List Char) (line_start : Nat) (ltoks : List SyntaxToken)
    (cp : List Bool) : Nat → Nat → Option (List (Option SyntaxKind × List Char))
  | 0, _ => none
  | fuel + 1, pos =>
    if pos < line.length then
      if cp.getD pos false = false then
        let e := scan_uncolored cp line.length (pos + 1)
        (merge_go line line_start ltoks cp fuel e).map
          (fun segs => (none, slice line pos e) :: segs)
      else
        match ltoks.find? (fun t => t.start - line_start == pos) with
        | some tok =>
          let e := min (tok.stop - line_start) line.length
          (merge_go line line_start ltoks cp fuel e).map
            (fun segs => (some tok.kind, slice line pos e) :: segs)
        | none => merge_go line line_start ltoks cp fuel (pos + 1)
    else some []

/-- One line of `render_code_block`: filter the tokens to the line, and
either emit the whole line uncolored (no tokens) or run the two-pass merge.
`line_start` is the byte offset of the line inside the block content. -/
def render_line (line : List Char) (line_start : Nat) (tokens : List SyntaxToken)
    (fuel : Nat) : Option (List (Option SyntaxKind × List Char)) :=
  let ltoks := line_tokens tokens line_start (line_start + line.length)
  if ltoks.isEmpty then some [(none, line)]
  else merge_go line line_start ltoks (colored_positions line.length line_start ltoks) fuel 0

/-- The visible text of a merge result: the emitted segments with the color
information dropped, concatenated. -/
def emitted_text (segs : List (Option SyntaxKind × List Char)) : List Char :=
  (segs.map Prod.snd).flatten

/-! ### Progress bar: rendering.rs `render_progress_bar`

The source computes
`((current.add(1)) as f32 / total as f32 * width as f32) as usize` in IEEE
binary32 arithmetic.  Each conversion and each operation is rounded to the
nearest representable value, ties to even mantissa.  The model below
represents every f32 value by its exact rational value and rounds with a
24-bit significand and an unbounded exponent; on the inputs reachable here
(positive values between roughly 2 to the minus 64 and 2 to the 64, far
inside the binary32 normal range) this agrees exactly with binary32: no
overflow, underflow or subnormal is ever hit, and negative values never
occur.  The final `as usize` cast truncates toward zero, i.e. takes the
floor of the nonnegative product. -/

/-- Round a scaled significand to the nearest integer, ties to the even
integer: the inner rounding step shared by every f32 operation. -/
def rnd_half_even (x : ℚ) : ℤ :=
  if x - ⌊x⌋ < 1/2 then ⌊x⌋
  else if 1/2 < x - ⌊x⌋ then ⌊x⌋ + 1
  else if 2 ∣ ⌊x⌋ then ⌊x⌋ else ⌊x⌋ + 1

/-- IEEE round-to-nearest-even of a rational to a 24-bit significand with
unbounded exponent: scale the input into `[2^23, 2^24)`, round the
significand to the nearest (ties even) integer, and scale back.  Inputs in
the program are never negative; nonpositive input returns 0 (exact for the
only reachable such input, 0 itself). -/
def round_f32 (q : ℚ) : ℚ :=
  if q ≤ 0 then 0
  else (rnd_half_even (q * 2 ^ ((23 : ℤ) - Int.log 2 q)) : ℚ) * 2 ^ (Int.log 2 q - (23 : ℤ))

/-- A usize converted with `as f32`: rounded to the nearest f32 value. -/
def to_f32 (n : ℕ) : ℚ := round_f32 (n : ℚ)

/-- f32 division: the exact quotient, correctly rounded. -/
def f32_div (a b : ℚ) : ℚ := round_f32 (a / b)

/-- f32 multiplication: the exact product, correctly rounded. -/
def f32_mul (a b : ℚ) : ℚ := round_f32 (a * b)

/-- Filled glyph count of `render_progress_bar`:
`((current.add(1)) as f32 / total as f32 * width as f32) as usize`,
with each f32 step correctly rounded and the final cast truncating the
nonnegative result toward zero.  (With `total = 0` the real code produces an
infinity and a saturated cast; the claims only concern `total ≥ 1`.) -/
def progress_length (current_slide total_slides width : Nat) : Nat :=
  ⌊f32_mul (f32_div (to_f32 (current_slide + 1)) (to_f32 total_slides)) (to_f32 width)⌋₊

/-- Blank cell count of the second write, `width as usize - progress_length`. -/
def progress_blank (current_slide total_slides width : Nat) : Nat :=
  width - progress_length current_slide total_slides width

/-! ### Theme catalog: colors.rs -/

/-- A terminal RGB triple (each component a byte value). -/
structure Rgb where
  r : Nat
  g : Nat
  b : Nat
deriving DecidableEq, Repr

/-- Value of one hex digit, upper or lower case. -/
def hex_digit_val (c : Char) : Option Nat :=
  if '0' ≤ c ∧ c ≤ '9' then some (c.toNat - '0'.toNat)
  else if 'a' ≤ c ∧ c ≤ 'f' then some (c.toNat - 'a'.toNat + 10)
  else if 'A' ≤ c ∧ c ≤ 'F' then some (c.toNat - 'A'.toNat + 10)
  else none

/-- `u8::from_str_radix` on a two-character hex slice. -/
def from_hex_pair (h l : Char) : Option Nat :=
  match hex_digit_val h, hex_digit_val l with
  | some a, some b => some (16 * a + b)
  | _, _ => none

/-- colors.rs `hex_to_rgb`: slices `hex[1..3]`, `hex[3..5]`, `hex[5..7]` and
parses each as a hex byte; slicing a shorter string or a malformed digit
panics in the source and is modelled as `none`. -/
def hex_to_rgb (hex : List Char) : Option Rgb :=
  match hex with
  | _ :: h1 :: h2 :: h3 :: h4 :: h5 :: h6 :: _ =>
    match from_hex_pair h1 h2, from_hex_pair h3 h4, from_hex_pair h5 h6 with
    | some r, some g, some b => some ⟨r, g, b⟩
    | _, _, _ => none
  | _ => none

/-- The palette record of colors.rs. -/
structure Color where
  text : Rgb
  teal : Rgb
  sky : Rgb
  peach : Rgb
  red : Rgb
  green : Rgb
deriving DecidableEq, Repr

/-- The five semantic roles of colors.rs. -/
structure ThemeColors where
  text : Rgb
  primary : Rgb
  secondary : Rgb
  tertiary : Rgb
  accent : Rgb
deriving DecidableEq, Repr

/-- The compiled-in theme catalog. -/
inductive Theme
  | CatppuccinLatte
  | CatppuccinMocha
  | OneDark
deriving DecidableEq, Repr

/-- colors.rs `get_colors` with the compiled-in hex constants. -/
def Theme.get_colors (t : Theme) : Option Color :=
  match t with
  | .CatppuccinLatte => do
    let text ← hex_to_rgb ("#4c4f69".toList)
    let teal ← hex_to_rgb ("#179299".toList)
    let sky ← hex_to_rgb ("#04a5e5".toList)
    let peach ← hex_to_rgb ("#fe640b".toList)
    let red ← hex_to_rgb ("#d20f39".toList)
    let green ← hex_to_rgb ("#40a02b".toList)
    pure ⟨text, teal, sky, peach, red, green⟩
  | .CatppuccinMocha => do
    let text ← hex_to_rgb ("#cdd6f4".toList)
    let teal ← hex_to_rgb ("#94e2d5".toList)
    let sky ← hex_to_rgb ("#94e2d5".toList)
    let peach ← hex_to_rgb ("#fab387".toList)
    let red ← hex_to_rgb ("#f38ba8".toList)
    let green ← hex_to_rgb ("#a6e3a1".toList)
    pure ⟨text, teal, sky, peach, red, green⟩
  | .OneDark => do
    let text ← hex_to_rgb ("#abb2bf".toList)
    let teal ← hex_to_rgb ("#56b6c2".toList)
    let sky ← hex_to_rgb ("#61afef".toList)
    let peach ← hex_to_rgb ("#e5c07b".toList)
    let red ← hex_to_rgb ("#e06c75".toList)
    let green ← hex_to_rgb ("#98c379".toList)
    pure ⟨text, teal, sky, peach, red, green⟩

/-- colors.rs `get_theme_colors`: the role resolver.  Primary is teal,
secondary is sky, and both tertiary and accent are green. -/
def Theme.get_theme_colors (t : Theme) : Option ThemeColors :=
  (t.get_colors).map (fun c => ⟨c.text, c.teal, c.sky, c.green, c.green⟩)

/-- rendering.rs `SyntaxKind::color`: theme roles for keyword, function,
type and variable; every other kind is a fixed RGB constant. -/
def SyntaxKind.color (k : SyntaxKind) (t : Theme) : Option Rgb :=
  match k with
  | .Keyword => (t.get_theme_colors).map ThemeColors.primary
  | .Conditional => some ⟨247, 118, 142⟩
  | .Constant => some ⟨217, 118, 142⟩
  | .Repeat => some ⟨117, 118, 142⟩
  | .Delimiter => some ⟨155, 118, 142⟩
  | .Bracket => some ⟨247, 158, 142⟩
  | .Function => (t.get_theme_colors).map ThemeColors.secondary
  | .Spell => some ⟨158, 186, 106⟩
  | .Typ => (t.get_theme_colors).map ThemeColors.tertiary
  | .String => some ⟨158, 206, 106⟩
  | .Number => some ⟨247, 118, 142⟩
  | .Comment => some ⟨150, 150, 150⟩
  | .Variable => (t.get_theme_colors).map ThemeColors.accent
  | .Parameter => some ⟨224, 175, 104⟩
  | .Operator => some ⟨187, 154, 247⟩
  | .Default => some ⟨255, 255, 255⟩

/-- rendering.rs `Header::color`: heading level to theme role. -/
def Header.color (h : Header) (t : Theme) : Option Rgb :=
  match h with
  | .Header1 => (t.get_theme_colors).map ThemeColors.primary
  | .Header2 => (t.get_theme_colors).map ThemeColors.secondary
  | .Header3 => (t.get_theme_colors).map ThemeColors.tertiary
  | .Header4 => (t.get_theme_colors).map ThemeColors.accent

/-! ### Helper lemmas -/

/-- A list whose first characters spell out `l` contains `l` as an infix. -/
theorem infix_of_take_eq (s l : List Char) (h : s.take l.length = l) :
    l <:+: s := by
  have h2 := List.take_append_drop l.length s
  rw [h] at h2
  exact ⟨[], s.drop l.length, by simpa using h2⟩

/-- An infix of the tail is an infix of the whole list. -/
theorem infix_extend_cons (c : Char) (l s : List Char) (h : l <:+: s) :
    l <:+: c :: s := by
  obtain ⟨t, u, rfl⟩ := h
  exact ⟨c :: t, u, rfl⟩

/-- The slide split never produces the empty list: each equation of
`split_go` returns a cons cell. -/
theorem split_go_ne_nil (fuel : Nat) (s : List Char) : split_go fuel s ≠ [] := by
  match fuel, s with
  | fuel, [] => simp [split_go]
  | 0, c :: rest => simp [split_go]
  | fuel + 1, c :: rest =>
    simp only [split_go]
    split
    · simp
    · cases split_go fuel rest <;> simp

/-- With no occurrence of the delimiter, the split returns the whole input
as its single piece (fuel at least the length never runs out). -/
theorem split_go_no_delim (fuel : Nat) (s : List Char) (hf : s.length ≤ fuel)
    (h : ¬ slide_delim <:+: s) : split_go fuel s = [s] := by
  induction fuel generalizing s with
  | zero =>
    have : s = [] := List.length_eq_zero.mp (Nat.le_zero.mp hf)
    subst this
    simp [split_go]
  | succ n ih =>
    cases s with
    | nil => simp [split_go]
    | cons c rest =>
      have hcond : ¬ ((c :: rest).take slide_delim.length = slide_delim) :=
        fun he => h (infix_of_take_eq _ _ he)
      have hrest : ¬ slide_delim <:+: rest :=
        fun hin => h (infix_extend_cons c _ _ hin)
      have hlen : rest.length ≤ n := by
        simpa using Nat.le_of_succ_le_succ (by simpa using hf)
      simp only [split_go, if_neg hcond, ih rest hlen hrest]

/-- The theme index after `k + 1` theme cycles. -/
theorem cycle_theme_iterate (numT s i : Nat) (k : Nat) :
    (cycle_theme numT)^[k + 1] ⟨s, i⟩ = ⟨s, (i + (k + 1)) % numT⟩ := by
  induction k with
  | zero => simp [cycle_theme]
  | succ n ih =>
    rw [Function.iterate_succ_apply', ih]
    simp only [cycle_theme, Nat.mod_add_mod]
    rfl

/-- Bounds on the tie-even integer rounding: it never drops below the
floor. -/
theorem rnd_floor_le (x : ℚ) : ⌊x⌋ ≤ rnd_half_even x := by
  unfold rnd_half_even
  split_ifs <;> omega

/-- Bounds on the tie-even integer rounding: it never exceeds the floor
plus one. -/
theorem rnd_le_floor_add_one (x : ℚ) : rnd_half_even x ≤ ⌊x⌋ + 1 := by
  unfold rnd_half_even
  split_ifs <;> omega

/-- The tie-even rounding moves its input by at most one half, upward. -/
theorem rnd_le (x : ℚ) : (rnd_half_even x : ℚ) ≤ x + 1/2 := by
  have hf : (⌊x⌋ : ℚ) ≤ x := Int.floor_le x
  unfold rnd_half_even
  split_ifs with h1 h2 h3 <;> push_cast <;> linarith

/-- The tie-even rounding moves its input by at most one half, downward. -/
theorem rnd_ge (x : ℚ) : x - 1/2 ≤ (rnd_half_even x : ℚ) := by
  have hf : x < ⌊x⌋ + 1 := Int.lt_floor_add_one x
  unfold rnd_half_even
  split_ifs with h1 h2 h3 <;> push_cast <;> linarith

/-- Integers are fixed points of the tie-even rounding. -/
theorem rnd_intCast (z : ℤ) : rnd_half_even (z : ℚ) = z := by
  unfold rnd_half_even
  rw [Int.floor_intCast]
  rw [if_pos (by norm_num)]

/-- The tie-even rounding is monotone. -/
theorem rnd_mono {x y : ℚ} (h : x ≤ y) : rnd_half_even x ≤ rnd_half_even y := by
  have hf : ⌊x⌋ ≤ ⌊y⌋ := Int.floor_le_floor h
  rcases lt_or_eq_of_le hf with hlt | heq
  · have h1 := rnd_le_floor_add_one x
    have h2 := rnd_floor_le y
    omega
  · have hc : ((⌊x⌋ : ℚ)) = ((⌊y⌋ : ℚ)) := by exact_mod_cast heq
    unfold rnd_half_even
    split_ifs <;> first | omega | (exfalso; linarith)

/-- The base-two logarithm characterised by a bracketing pair of powers. -/
theorem int_log_eq_of (q : ℚ) (e : ℤ) (hq : 0 < q) (h1 : 2 ^ e ≤ q)
    (h2 : q < 2 ^ (e + 1)) : Int.log 2 q = e := by
  have hle : e ≤ Int.log 2 q := (Int.zpow_le_iff_le_log one_lt_two hq).mp (by exact_mod_cast h1)
  have hlt : Int.log 2 q < e + 1 := (Int.lt_zpow_iff_log_lt one_lt_two hq).mp (by exact_mod_cast h2)
  omega

/-- On positive input the guard of `round_f32` is not taken. -/
theorem round_f32_of_pos (q : ℚ) (hq : 0 < q) :
    round_f32 q
      = (rnd_half_even (q * 2 ^ ((23 : ℤ) - Int.log 2 q)) : ℚ) * 2 ^ (Int.log 2 q - (23 : ℤ)) := by
  rw [round_f32, if_neg (not_le.mpr hq)]

/-- The scaled significand sits at or above `2 ^ 23`. -/
theorem round_f32_scaled_lower (q : ℚ) (hq : 0 < q) :
    (2 : ℚ) ^ (23 : ℤ) ≤ q * 2 ^ ((23 : ℤ) - Int.log 2 q) := by
  have h1 : ((2 : ℕ) : ℚ) ^ (Int.log 2 q) ≤ q := Int.zpow_log_le_self one_lt_two hq
  have h2 : (0 : ℚ) < 2 ^ ((23 : ℤ) - Int.log 2 q) := zpow_pos (by norm_num) _
  calc (2 : ℚ) ^ (23 : ℤ)
      = 2 ^ (Int.log 2 q) * 2 ^ ((23 : ℤ) - Int.log 2 q) := by
        rw [← zpow_add₀ (two_ne_zero)]
        norm_num
    _ ≤ q * 2 ^ ((23 : ℤ) - Int.log 2 q) := by
        apply mul_le_mul_of_nonneg_right _ (le_of_lt h2)
        exact_mod_cast h1

/-- The scaled significand sits strictly below `2 ^ 24`. -/
theorem round_f32_scaled_upper (q : ℚ) (_hq : 0 < q) :
    q * 2 ^ ((23 : ℤ) - Int.log 2 q) < (2 : ℚ) ^ (24 : ℤ) := by
  have h1 : q < ((2 : ℕ) : ℚ) ^ (Int.log 2 q + 1) := Int.lt_zpow_succ_log_self one_lt_two q
  have h2 : (0 : ℚ) < 2 ^ ((23 : ℤ) - Int.log 2 q) := zpow_pos (by norm_num) _
  calc q * 2 ^ ((23 : ℤ) - Int.log 2 q)
      < 2 ^ (Int.log 2 q + 1) * 2 ^ ((23 : ℤ) - Int.log 2 q) := by
        apply mul_lt_mul_of_pos_right _ h2
        exact_mod_cast h1
    _ = (2 : ℚ) ^ (24 : ℤ) := by
        rw [← zpow_add₀ (two_ne_zero)]
        norm_num
        ring_nf

/-- Rounding a positive value stays at or above the power of two below it. -/
theorem round_f32_ge_zpow (q : ℚ) (hq : 0 < q) :
    (2 : ℚ) ^ (Int.log 2 q) ≤ round_f32 q := by
  rw [round_f32_of_pos q hq]
  have hs := round_f32_scaled_lower q hq
  have hr : ((2 : ℤ) ^ (23 : ℕ) : ℤ) ≤ rnd_half_even (q * 2 ^ ((23 : ℤ) - Int.log 2 q)) := by
    calc ((2 : ℤ) ^ (23 : ℕ) : ℤ) ≤ ⌊q * 2 ^ ((23 : ℤ) - Int.log 2 q)⌋ := by
          apply Int.le_floor.mpr
          push_cast
          calc ((2 : ℚ) ^ (23 : ℕ)) = (2 : ℚ) ^ (23 : ℤ) := by norm_num
            _ ≤ _ := hs
      _ ≤ _ := rnd_floor_le _
  calc (2 : ℚ) ^ (Int.log 2 q)
      = (2 : ℚ) ^ (23 : ℤ) * 2 ^ (Int.log 2 q - 23) := by
        rw [← zpow_add₀ (two_ne_zero)]
        ring_nf
    _ ≤ (rnd_half_even (q * 2 ^ ((23 : ℤ) - Int.log 2 q)) : ℚ) * 2 ^ (Int.log 2 q - 23) := by
        apply mul_le_mul_of_nonneg_right _ (le_of_lt (zpow_pos (by norm_num) _))
        exact_mod_cast hr

/-- Rounding a positive value gives a positive value (f32 never flushes
these inputs to zero: they are far above the subnormal range). -/
theorem round_f32_pos (q : ℚ) (hq : 0 < q) : 0 < round_f32 q :=
  lt_of_lt_of_le (zpow_pos (by norm_num) _) (round_f32_ge_zpow q hq)

/-- Rounding a positive value stays at or below the next power of two. -/
theorem round_f32_le_zpow (q : ℚ) (hq : 0 < q) :
    round_f32 q ≤ (2 : ℚ) ^ (Int.log 2 q + 1) := by
  rw [round_f32_of_pos q hq]
  have hs := round_f32_scaled_upper q hq
  have hr : rnd_half_even (q * 2 ^ ((23 : ℤ) - Int.log 2 q)) ≤ ((2 : ℤ) ^ (24 : ℕ)) := by
    have h1 := rnd_le (q * 2 ^ ((23 : ℤ) - Int.log 2 q))
    have h2 : (rnd_half_even (q * 2 ^ ((23 : ℤ) - Int.log 2 q)) : ℚ)
        < ((2 : ℤ) ^ (24 : ℕ) : ℤ) + 1 := by
      push_cast
      calc (rnd_half_even (q * 2 ^ ((23 : ℤ) - Int.log 2 q)) : ℚ)
          ≤ q * 2 ^ ((23 : ℤ) - Int.log 2 q) + 1/2 := h1
        _ < (2 : ℚ) ^ (24 : ℤ) + 1/2 := by linarith
        _ ≤ (2 : ℚ) ^ (24 : ℕ) + 1 := by norm_num
    have h3 : rnd_half_even (q * 2 ^ ((23 : ℤ) - Int.log 2 q)) < (2 : ℤ) ^ (24 : ℕ) + 1 := by
      exact_mod_cast h2
    omega
  calc (rnd_half_even (q * 2 ^ ((23 : ℤ) - Int.log 2 q)) : ℚ) * 2 ^ (Int.log 2 q - 23)
      ≤ ((2 : ℤ) ^ (24 : ℕ) : ℚ) * 2 ^ (Int.log 2 q - 23) := by
        apply mul_le_mul_of_nonneg_right _ (le_of_lt (zpow_pos (by norm_num) _))
        exact_mod_cast hr
    _ = (2 : ℚ) ^ (Int.log 2 q + 1) := by
        push_cast
        rw [show ((2:ℚ))^(24:ℕ) = ((2:ℚ))^(24:ℤ) by norm_num, ← zpow_add₀ (two_ne_zero)]
        ring_nf

/-- A positive value whose scaled significand is already an integer is
exactly representable and rounds to itself. -/
theorem round_f32_fix (q : ℚ) (hq : 0 < q) (z : ℤ)
    (hz : q * 2 ^ ((23 : ℤ) - Int.log 2 q) = (z : ℚ)) : round_f32 q = q := by
  rw [round_f32_of_pos q hq, hz, rnd_intCast, ← hz, mul_assoc, ← zpow_add₀ (two_ne_zero)]
  norm_num

/-- Natural numbers below `2 ^ 24` convert to f32 exactly. -/
theorem round_f32_natCast (n : ℕ) (h : n < 2 ^ 24) : round_f32 (n : ℚ) = n := by
  rcases Nat.eq_zero_or_pos n with h0 | h0
  · subst h0
    rw [round_f32, if_pos (by norm_num)]
    norm_num
  · have hq : (0 : ℚ) < n := by exact_mod_cast h0
    have hL0 : 0 ≤ Int.log 2 (n : ℚ) := by
      apply (Int.zpow_le_iff_le_log one_lt_two hq).mp
      norm_num
      omega
    have hL23 : Int.log 2 (n : ℚ) ≤ 23 := by
      have hlt : (n : ℚ) < ((2 : ℕ) : ℚ) ^ (24 : ℤ) := by
        push_cast
        exact_mod_cast h
      have := (Int.lt_zpow_iff_log_lt one_lt_two hq).mp hlt
      omega
    obtain ⟨k, hk⟩ : ∃ k : ℕ, (23 : ℤ) - Int.log 2 (n : ℚ) = (k : ℤ) :=
      ⟨((23 : ℤ) - Int.log 2 (n : ℚ)).toNat, by omega⟩
    apply round_f32_fix _ hq ((n : ℤ) * 2 ^ k)
    rw [hk]
    push_cast
    norm_num

/-- f32 rounding is monotone on positive inputs. -/
theorem round_f32_mono (x y : ℚ) (hx : 0 < x) (hxy : x ≤ y) :
    round_f32 x ≤ round_f32 y := by
  have hy : 0 < y := lt_of_lt_of_le hx hxy
  have hL : Int.log 2 x ≤ Int.log 2 y := Int.log_mono_right hx hxy
  rcases lt_or_eq_of_le hL with hlt | heq
  · calc round_f32 x ≤ (2 : ℚ) ^ (Int.log 2 x + 1) := round_f32_le_zpow x hx
      _ ≤ (2 : ℚ) ^ (Int.log 2 y) := zpow_le_zpow_right₀ (by norm_num) (by omega)
      _ ≤ round_f32 y := round_f32_ge_zpow y hy
  · rw [round_f32_of_pos x hx, round_f32_of_pos y hy, ← heq]
    apply mul_le_mul_of_nonneg_right _ (le_of_lt (zpow_pos (by norm_num) _))
    have : rnd_half_even (x * 2 ^ ((23 : ℤ) - Int.log 2 x))
        ≤ rnd_half_even (y * 2 ^ ((23 : ℤ) - Int.log 2 x)) := by
      apply rnd_mono
      apply mul_le_mul_of_nonneg_right hxy (le_of_lt (zpow_pos (by norm_num) _))
    exact_mod_cast this

/-- A positive value at most one rounds to at most one (one is exactly
representable, so nothing below it can round above it). -/
theorem round_f32_le_one (q : ℚ) (hq : 0 < q) (h1 : q ≤ 1) : round_f32 q ≤ 1 := by
  rcases eq_or_lt_of_le h1 with he | hlt
  · subst he
    have := round_f32_natCast 1 (by norm_num)
    push_cast at this
    rw [this]
  · have hneg : Int.log 2 q < 0 := by
      have h2 : q < ((2 : ℕ) : ℚ) ^ (0 : ℤ) := by simpa using hlt
      exact (Int.lt_zpow_iff_log_lt one_lt_two hq).mp h2
    calc round_f32 q ≤ (2 : ℚ) ^ (Int.log 2 q + 1) := round_f32_le_zpow q hq
      _ ≤ (2 : ℚ) ^ (0 : ℤ) := zpow_le_zpow_right₀ (by norm_num) (by omega)
      _ = 1 := by norm_num

/-- Rounding overshoots its input by at most half an ulp. -/
theorem round_f32_le_half_ulp (q : ℚ) (hq : 0 < q) :
    round_f32 q ≤ q + 2 ^ (Int.log 2 q - (23 : ℤ)) / 2 := by
  rw [round_f32_of_pos q hq]
  have h1 := rnd_le (q * 2 ^ ((23 : ℤ) - Int.log 2 q))
  have h2 : (0 : ℚ) < 2 ^ (Int.log 2 q - (23 : ℤ)) := zpow_pos (by norm_num) _
  calc (rnd_half_even (q * 2 ^ ((23 : ℤ) - Int.log 2 q)) : ℚ) * 2 ^ (Int.log 2 q - (23 : ℤ))
      ≤ (q * 2 ^ ((23 : ℤ) - Int.log 2 q) + 1/2) * 2 ^ (Int.log 2 q - (23 : ℤ)) :=
        mul_le_mul_of_nonneg_right h1 (le_of_lt h2)
    _ = q * (2 ^ ((23 : ℤ) - Int.log 2 q) * 2 ^ (Int.log 2 q - (23 : ℤ)))
        + 2 ^ (Int.log 2 q - (23 : ℤ)) / 2 := by ring
    _ = q + 2 ^ (Int.log 2 q - (23 : ℤ)) / 2 := by
        rw [← zpow_add₀ (two_ne_zero)]
        norm_num

/-- On the last slide the ratio is exactly one and the bar fills the whole
width (widths are u16 values, so they are exact in f32). -/
theorem progress_length_last (t w : Nat) (ht : 1 ≤ t) (hw : w < 2 ^ 24) :
    progress_length (t - 1) t w = w := by
  have htq : (0 : ℚ) < (t : ℚ) := by exact_mod_cast ht
  have hv : 0 < to_f32 t := round_f32_pos _ htq
  have hwq : to_f32 w = (w : ℚ) := round_f32_natCast w hw
  unfold progress_length
  rw [Nat.sub_add_cancel ht]
  have hdiv : f32_div (to_f32 t) (to_f32 t) = 1 := by
    unfold f32_div
    rw [div_self (ne_of_gt hv)]
    exact_mod_cast round_f32_natCast 1 (by norm_num)
  rw [hdiv]
  unfold f32_mul
  rw [one_mul, hwq, round_f32_natCast w hw]
  exact Nat.floor_natCast w

/-- Within the navigation invariant the filled length never exceeds the
width, so the blank-remainder subtraction cannot underflow. -/
theorem progress_length_le (c t w : Nat) (ht : 1 ≤ t) (hc : c < t) (hw : w < 2 ^ 24) :
    progress_length c t w ≤ w := by
  rcases Nat.eq_zero_or_pos w with hw0 | hwpos
  · subst hw0
    unfold progress_length to_f32
    rw [show round_f32 ((0 : ℕ) : ℚ) = 0 by rw [round_f32, if_pos (by norm_num)]]
    unfold f32_mul
    rw [mul_zero, show round_f32 0 = 0 by rw [round_f32, if_pos le_rfl]]
    norm_num
  · have ha : (0 : ℚ) < ((c + 1 : ℕ) : ℚ) := by positivity
    have hb : (0 : ℚ) < ((t : ℕ) : ℚ) := by exact_mod_cast ht
    have hva : 0 < to_f32 (c + 1) := round_f32_pos _ ha
    have hvb : 0 < to_f32 t := round_f32_pos _ hb
    have hab : to_f32 (c + 1) ≤ to_f32 t := by
      apply round_f32_mono _ _ ha
      exact_mod_cast Nat.succ_le_of_lt hc
    have hr_pos : 0 < f32_div (to_f32 (c + 1)) (to_f32 t) :=
      round_f32_pos _ (div_pos hva hvb)
    have hr_le : f32_div (to_f32 (c + 1)) (to_f32 t) ≤ 1 :=
      round_f32_le_one _ (div_pos hva hvb) ((div_le_one hvb).mpr hab)
    have hwq : to_f32 w = (w : ℚ) := round_f32_natCast w hw
    have hwqpos : (0 : ℚ) < (w : ℚ) := by exact_mod_cast hwpos
    set r := f32_div (to_f32 (c + 1)) (to_f32 t) with hr
    have hp_pos : 0 < r * to_f32 w := by
      rw [hwq]
      exact mul_pos hr_pos hwqpos
    have hp_le : r * to_f32 w ≤ (w : ℚ) := by
      rw [hwq]
      calc r * (w : ℚ) ≤ 1 * (w : ℚ) :=
            mul_le_mul_of_nonneg_right hr_le (le_of_lt hwqpos)
        _ = (w : ℚ) := one_mul _
    have hL : Int.log 2 (r * to_f32 w) ≤ 23 := by
      have hlt : r * to_f32 w < ((2 : ℕ) : ℚ) ^ (24 : ℤ) := by
        push_cast
        calc r * to_f32 w ≤ (w : ℚ) := hp_le
          _ < (2 : ℚ) ^ (24 : ℤ) := by
              rw [show ((2:ℚ)) ^ (24:ℤ) = ((2^24 : ℕ) : ℚ) by push_cast; norm_num]
              exact_mod_cast hw
      have := (Int.lt_zpow_iff_log_lt one_lt_two hp_pos).mp hlt
      omega
    have hround : f32_mul r (to_f32 w) ≤ (w : ℚ) + 1/2 := by
      unfold f32_mul
      calc round_f32 (r * to_f32 w)
          ≤ r * to_f32 w + 2 ^ (Int.log 2 (r * to_f32 w) - (23 : ℤ)) / 2 :=
            round_f32_le_half_ulp _ hp_pos
        _ ≤ (w : ℚ) + 2 ^ ((0 : ℤ)) / 2 := by
            have h2 : (2 : ℚ) ^ (Int.log 2 (r * to_f32 w) - (23 : ℤ)) ≤ 2 ^ ((0 : ℤ)) :=
              zpow_le_zpow_right₀ (by norm_num) (by omega)
            linarith
        _ = (w : ℚ) + 1/2 := by norm_num
    have hnonneg : (0 : ℚ) ≤ f32_mul r (to_f32 w) :=
      le_of_lt (round_f32_pos _ hp_pos)
    unfold progress_length
    rw [← hr]
    have : ⌊f32_mul r (to_f32 w)⌋₊ < w + 1 := by
      apply (Nat.floor_lt hnonneg).mpr
      push_cast
      linarith
    omega

/-- One converts exactly. -/
theorem to_f32_one : to_f32 1 = 1 := by
  unfold to_f32
  exact_mod_cast round_f32_natCast 1 (by norm_num)

/-- One half is exactly representable. -/
theorem round_f32_half : round_f32 (1/2 : ℚ) = 1/2 := by
  have hlog : Int.log 2 ((1:ℚ)/2) = -1 := by
    apply int_log_eq_of _ _ (by norm_num)
    · rw [zpow_neg, zpow_one]
      norm_num
    · norm_num
  apply round_f32_fix _ (by norm_num) 8388608
  rw [hlog]
  norm_num

/-- Three halves is exactly representable. -/
theorem round_f32_three_halves : round_f32 (3/2 : ℚ) = 3/2 := by
  have hlog : Int.log 2 ((3:ℚ)/2) = 0 := by
    apply int_log_eq_of _ _ (by norm_num) (by norm_num) (by norm_num)
  apply round_f32_fix _ (by norm_num) 12582912
  rw [hlog]
  norm_num

/-- The f32 quotient 21/40: the exact value 0.525 is not representable and
rounds down to the f32 value 4404019/8388608 = 0.52499997…, exactly as the
program's `21.0f32 / 40.0f32` does. -/
theorem round_f32_ratio_21_40 : round_f32 ((21:ℚ)/40) = 4404019/8388608 := by
  have hlog : Int.log 2 ((21:ℚ)/40) = -1 := by
    apply int_log_eq_of _ _ (by norm_num)
    · rw [zpow_neg, zpow_one]
      norm_num
    · norm_num
  rw [round_f32_of_pos _ (by norm_num), hlog]
  have h1 : ((21:ℚ)/40) * 2 ^ ((23:ℤ) - (-1)) = 44040192/5 := by norm_num
  rw [h1]
  have h2 : rnd_half_even (44040192/5 : ℚ) = 8808038 := by
    have hf : ⌊(44040192/5 : ℚ)⌋ = 8808038 := by
      rw [Int.floor_eq_iff]
      norm_num
    rw [rnd_half_even, hf]
    norm_num
  rw [h2]
  norm_num

/-- The pipeline at index 0 of 2 slides, width 3: every value is exactly
representable, the product is 1.5, and the cast truncates it to 1. -/
theorem progress_c9_small : progress_length 0 2 3 = 1 := by
  have h1 : to_f32 (0 + 1) = 1 := to_f32_one
  have h2 : to_f32 2 = 2 := by
    unfold to_f32
    exact_mod_cast round_f32_natCast 2 (by norm_num)
  have h3 : to_f32 3 = 3 := by
    unfold to_f32
    exact_mod_cast round_f32_natCast 3 (by norm_num)
  unfold progress_length
  rw [h1, h2, h3]
  have h4 : f32_div 1 2 = 1/2 := by
    unfold f32_div
    exact round_f32_half
  rw [h4]
  have h5 : f32_mul (1/2) 3 = 3/2 := by
    unfold f32_mul
    rw [show (1/2 : ℚ) * 3 = 3/2 by norm_num]
    exact round_f32_three_halves
  rw [h5]
  rw [Nat.floor_eq_iff (by norm_num)]
  norm_num

/-- The pipeline at index 20 of 40 slides, width 120: the rounded quotient
0.52499997… times 120 rounds to 62.999996…, which truncates to 62 — one
cell short of the exact 63, matching the running program. -/
theorem progress_c9_large : progress_length 20 40 120 = 62 := by
  have h1 : to_f32 (20 + 1) = 21 := by
    unfold to_f32
    exact_mod_cast round_f32_natCast 21 (by norm_num)
  have h2 : to_f32 40 = 40 := by
    unfold to_f32
    exact_mod_cast round_f32_natCast 40 (by norm_num)
  have h3 : to_f32 120 = 120 := by
    unfold to_f32
    exact_mod_cast round_f32_natCast 120 (by norm_num)
  unfold progress_length
  rw [h1, h2, h3]
  have h4 : f32_div 21 40 = 4404019/8388608 := by
    unfold f32_div
    exact round_f32_ratio_21_40
  rw [h4]
  have h5 : f32_mul (4404019/8388608) 120 = 16515071/262144 := by
    unfold f32_mul
    rw [show (4404019/8388608 : ℚ) * 120 = 66060285/1048576 by norm_num]
    have hlog : Int.log 2 ((66060285:ℚ)/1048576) = 5 := by
      apply int_log_eq_of _ _ (by norm_num) (by norm_num) (by norm_num)
    rw [round_f32_of_pos _ (by norm_num), hlog]
    have ha : ((66060285:ℚ)/1048576) * 2 ^ ((23:ℤ) - 5) = 66060285/4 := by norm_num
    rw [ha]
    have hb : rnd_half_even (66060285/4 : ℚ) = 16515071 := by
      have hf : ⌊(66060285/4 : ℚ)⌋ = 16515071 := by
        rw [Int.floor_eq_iff]
        norm_num
      rw [rnd_half_even, hf]
      norm_num
    rw [hb]
    norm_num
  rw [h5]
  rw [Nat.floor_eq_iff (by norm_num)]
  norm_num

/-! ### Claim theorems -/

/-- C1: the render-time merge does not emit every byte of the line once.  On
the line `abcd` with the sorted, overlapping tokens `[0,2)` and `[1,4)` the
merge emits only `ab`: after the first token ends at position 2, positions 2
and 3 are colored but no token starts there, and the source's else branch
advances without emitting.  The concatenated segments do not reconstruct the
line. -/
theorem merge_drops_overlapped_bytes :
    (render_line ("abcd".toList) 0
        [⟨SyntaxKind.Default, 0, 2⟩, ⟨SyntaxKind.Default, 1, 4⟩] 10).map emitted_text
      = some ("ab".toList)
  ∧ "ab".toList ≠ "abcd".toList := by
  exact ⟨by decide, by decide⟩

/-- C2: a heading line with a run of five hash marks is not treated as plain
text; `render_slide` reaches `Header::header_by_prefix("#####").unwrap()`,
which is `None`, so rendering the line faults (modelled as `none`). -/
theorem heading_run_of_five_faults :
    classify_line ("##### Hello".toList) = none
  ∧ header_by_prefix ("#####".toList) = none := by
  exact ⟨by decide, by decide⟩

/-- C3: the centering subtraction is not guarded.  When the text is longer
than the terminal width the usize subtraction `width - text.len()` in
`render_text_centered` underflows and the render faults instead of padding
with zero; when the text fits, the padding is `floor((width - len) / 2)`. -/
theorem centered_padding_faults :
    centered_padding 5 10 = none
  ∧ (∀ w l : Nat, l ≤ w → centered_padding w l = some ((w - l) / 2)) :=
  ⟨rfl, fun w l h => by simp [centered_padding, h]⟩

/-- C3 witness: the padding formula evaluated at width 10, length 4. -/
theorem centered_padding_faults_check : centered_padding 10 4 = some 3 :=
  centered_padding_faults.2 10 4 (by decide)

/-- C4: with well-formed front matter followed by a body that itself contains
a later `---` line, the greedy strip regex `(?s)^---\n.*\n---\n` removes the
prefix through the LAST `---` line, not just the front-matter block: the body
of `---\ntitle: T\n---\nX\n---\nY\n` comes back as `Y\n` instead of the
claimed `X\n---\nY\n`. -/
theorem front_matter_greedy_overstrip :
    (parse_metadata ("---\ntitle: T\n---\nX\n---\nY\n".toList)).2 = "Y\n".toList
  ∧ "Y\n".toList ≠ "X\n---\nY\n".toList := by
  exact ⟨by decide, by decide⟩

/-- C5: the key/value capture regex runs over the whole input, not over a
front-matter block, so an input without front matter whose body contains
`title: X` yields metadata with the title set, while the body is returned
unchanged. -/
theorem metadata_scanned_outside_front_matter :
    ((parse_metadata ("hi\ntitle: X\n".toList)).1).title = some ("X".toList)
  ∧ (parse_metadata ("hi\ntitle: X\n".toList)).2 = "hi\ntitle: X\n".toList := by
  exact ⟨by decide, by decide⟩

/-- C6: the merge does not terminate on every token list.  On the line `ab`
with the sorted tokens `[0,0)` (zero length) and `[0,2)`, position 0 is
colored and the first token whose start is 0 is the zero-length one, so the
loop emits an empty segment and leaves `current_pos` at 0 forever: for every
fuel bound the embedded loop fails to finish. -/
theorem merge_zero_length_token_diverges (fuel : Nat) :
    render_line ("ab".toList) 0
      [⟨SyntaxKind.Default, 0, 0⟩, ⟨SyntaxKind.Keyword, 0, 2⟩] fuel = none := by
  have key : ∀ f : Nat, merge_go ("ab".toList) 0
      [⟨SyntaxKind.Default, 0, 0⟩, ⟨SyntaxKind.Keyword, 0, 2⟩] [true, true] f 0 = none := by
    intro f
    induction f with
    | zero => rfl
    | succ n ih =>
      have step : merge_go ("ab".toList) 0
          [⟨SyntaxKind.Default, 0, 0⟩, ⟨SyntaxKind.Keyword, 0, 2⟩] [true, true] (n + 1) 0
          = (merge_go ("ab".toList) 0
              [⟨SyntaxKind.Default, 0, 0⟩, ⟨SyntaxKind.Keyword, 0, 2⟩] [true, true] n 0).map
              (fun segs => (some SyntaxKind.Default, []) :: segs) := rfl
      rw [step, ih]
      rfl
  exact key fuel

/-- C7: the slide split never yields an empty list, with no delimiter it
yields exactly the whole body, the empty body yields one empty slide, and
the three-part example splits with the delimiter in no slide. -/
theorem split_into_slides_spec :
    (∀ s : List Char, split_into_slides s ≠ [])
  ∧ (∀ s : List Char, ¬ slide_delim <:+: s → split_into_slides s = [s])
  ∧ split_into_slides [] = [[]]
  ∧ split_into_slides ("A<!-- end_slide -->B<!-- end_slide -->C".toList)
      = ["A".toList, "B".toList, "C".toList] := by
  exact ⟨fun s => split_go_ne_nil _ _,
    fun s h => split_go_no_delim _ _ le_rfl h, rfl, by decide⟩

/-- C7 witness: the split on the delimiter-free body `x`. -/
theorem split_into_slides_spec_check :
    split_into_slides ("x".toList) ≠ [] ∧ split_into_slides ("x".toList) = ["x".toList] :=
  ⟨split_into_slides_spec.1 _, split_into_slides_spec.2.1 _ (by decide)⟩

/-- C8: all navigation transitions are total and keep both indices in range;
`prev` at index 0 stays, `next` at the last index stays, and cycling the
theme `T` times returns to the original theme. -/
theorem navigation_invariants (N T slide theme : Nat) (hN : 1 ≤ N) (hT : 1 ≤ T)
    (hs : slide < N) (hth : theme < T) :
    (move_to_previous_slide ⟨slide, theme⟩).current_slide < N
  ∧ (move_to_next_slide N ⟨slide, theme⟩).current_slide < N
  ∧ (cycle_theme T ⟨slide, theme⟩).current_theme_index < T
  ∧ move_to_previous_slide ⟨0, theme⟩ = ⟨0, theme⟩
  ∧ move_to_next_slide N ⟨N - 1, theme⟩ = ⟨N - 1, theme⟩
  ∧ (cycle_theme T)^[T] ⟨slide, theme⟩ = ⟨slide, theme⟩ := by
  refine ⟨?_, ?_, ?_, ?_, ?_, ?_⟩
  · simp only [move_to_previous_slide]
    omega
  · simp only [move_to_next_slide]
    split <;> simp <;> omega
  · exact Nat.mod_lt _ (by omega)
  · simp [move_to_previous_slide]
  · simp [move_to_next_slide]
  · obtain ⟨T', rfl⟩ : ∃ T', T = T' + 1 := ⟨T - 1, by omega⟩
    rw [cycle_theme_iterate]
    congr 1
    rw [Nat.add_mod_right]
    exact Nat.mod_eq_of_lt hth

/-- C8 witness: two slides, three themes, state (1, 2). -/
theorem navigation_invariants_check :
    (move_to_previous_slide ⟨1, 2⟩).current_slide < 2
  ∧ (move_to_next_slide 2 ⟨1, 2⟩).current_slide < 2
  ∧ (cycle_theme 3 ⟨1, 2⟩).current_theme_index < 3
  ∧ move_to_previous_slide ⟨0, 2⟩ = ⟨0, 2⟩
  ∧ move_to_next_slide 2 ⟨2 - 1, 2⟩ = ⟨2 - 1, 2⟩
  ∧ (cycle_theme 3)^[3] ⟨1, 2⟩ = ⟨1, 2⟩ :=
  navigation_invariants 2 3 1 2 (by decide) (by decide) (by decide) (by decide)

/-- C9 counterexample: the bar length is not `round(width * (index+1)/N)`.
At width 3, two slides, index 0 every f32 value is exact: the program
truncates `0.5 * 3.0 = 1.5` to 1 while the claimed formula rounds it to 2.
At width 120, 40 slides, index 20 the claimed formula gives the exact 63,
but the f32 quotient `21.0/40.0` rounds below 0.525, the product rounds to
62.999996…, and the cast truncates it to 62. -/
theorem progress_round_counterexample :
    progress_length 0 2 3 = 1
  ∧ round ((3 : ℚ) * ((0 : ℚ) + 1) / 2) = 2
  ∧ (progress_length 0 2 3 : ℤ) ≠ round ((3 : ℚ) * ((0 : ℚ) + 1) / 2)
  ∧ progress_length 20 40 120 = 62
  ∧ round ((120 : ℚ) * ((20 : ℚ) + 1) / 40) = 63
  ∧ (progress_length 20 40 120 : ℤ) ≠ round ((120 : ℚ) * ((20 : ℚ) + 1) / 40) := by
  have h2 : round ((3 : ℚ) * ((0 : ℚ) + 1) / 2) = 2 := by
    norm_num [round_eq]
  have h5 : round ((120 : ℚ) * ((20 : ℚ) + 1) / 40) = 63 := by
    norm_num [round_eq]
  refine ⟨progress_c9_small, h2, ?_, progress_c9_large, h5, ?_⟩
  · rw [progress_c9_small, h2]
    decide
  · rw [progress_c9_large, h5]
    decide

/-- C9 amended: the filled length is the f32 product cast to usize, which
truncates toward zero instead of rounding; for every index below N (N at
least 1) and width below `2 ^ 24` (widths are u16 values from the terminal),
the filled length never exceeds the width and the remaining `width - filled`
cells are blank; in particular with N = 1 at index 0, and on the last slide
(index = N - 1) for any N, the ratio is exactly 1.0 and the filled length
equals the full width. -/
theorem progress_bar_f32_spec (c t w : Nat) (ht : 1 ≤ t) (hc : c < t) (hw : w < 2 ^ 24) :
    progress_length (t - 1) t w = w
  ∧ progress_length 0 1 w = w
  ∧ progress_length c t w ≤ w
  ∧ progress_length c t w + progress_blank c t w = w := by
  have hle := progress_length_le c t w ht hc hw
  refine ⟨progress_length_last t w ht hw, ?_, hle, ?_⟩
  · exact progress_length_last 1 w le_rfl hw
  · unfold progress_blank
    omega

/-- C9 witness: width 3, two slides, index 0. -/
theorem progress_bar_f32_spec_check :
    progress_length (2 - 1) 2 3 = 3
  ∧ progress_length 0 1 3 = 3
  ∧ progress_length 0 2 3 ≤ 3
  ∧ progress_length 0 2 3 + progress_blank 0 2 3 = 3 :=
  progress_bar_f32_spec 0 2 3 (by norm_num) (by norm_num) (by norm_num)

/-- C10: in every theme of the catalog the tertiary and accent roles resolve
to the same RGB value (both map to the palette's green), so the `Typ` and
`Variable` token kinds, and heading levels 3 and 4, render in one identical
color. -/
theorem tertiary_accent_coincide (t : Theme) :
    ∃ tc, Theme.get_theme_colors t = some tc ∧ tc.tertiary = tc.accent
      ∧ SyntaxKind.color SyntaxKind.Typ t = SyntaxKind.color SyntaxKind.Variable t
      ∧ Header.color Header.Header3 t = Header.color Header.Header4 t := by
  cases t <;> exact ⟨_, rfl, rfl, rfl, rfl⟩

end TermDeck
